import Mathlib

/-!
A shallow embedding of the schema-analyzer core (TypeScript sources under
`src/schema-analyzer/`): the entity model (`Table`, `Column`, foreign keys),
column-type normalization (`getFullType`), the dependency resolver
(`determineInsertionOrder` with its inner `visit`), the report helpers
(required-column extraction, core-table identification, enum-value
rendering), and the `analyze` entry point.  Recursion in `visit` is made
total with an explicit fuel argument; the fuel value used by
`determineInsertionOrder` is proven sufficient (`VErr.noFuel` is never
returned), so the embedding agrees with the source on every input.
-/

namespace SchemaAnalyzer

/-- `Column` entity from `types/schema-analyzer.types.ts` (the `constraints`
placeholder list is omitted; it is never populated nor read). -/
structure Column where
  name : String
  type : String
  nullable : Bool
  default_value : Option String
  deriving DecidableEq, Repr

/-- Foreign-key record from `types/schema-analyzer.types.ts`. -/
structure ForeignKey where
  column : String
  referenced_table : String
  referenced_column : String
  update_rule : String
  delete_rule : String
  deriving DecidableEq, Repr

/-- Unique-constraint record. -/
structure UniqueConstraint where
  name : String
  columns : List String
  deriving DecidableEq, Repr

/-- Check-constraint record. -/
structure CheckConstraint where
  name : String
  definition : String
  deriving DecidableEq, Repr

/-- `Table` entity from `types/schema-analyzer.types.ts`. -/
structure Table where
  name : String
  schema : String
  columns : List Column
  primary_key : List String
  foreign_keys : List ForeignKey
  unique_constraints : List UniqueConstraint
  check_constraints : List CheckConstraint
  depends_on : List String
  deriving DecidableEq, Repr

/-- The names of the tables in the input list, in input order. -/
def tableNames (tables : List Table) : List String :=
  tables.map Table.name

/-- `tables.find((t) => t.name === tableName)` from `determineInsertionOrder`
(`services/analyzer.service.ts`, line 106): first table with the given name. -/
def findTable (tables : List Table) (name : String) : Option Table :=
  tables.find? (fun t => t.name == name)

/-! ## Column type normalization (`getFullType`) -/

/-- JavaScript truthiness of a nullable numeric catalog field:
`null`/`undefined` and `0` are falsy, any other number is truthy. -/
def truthy : Option Nat → Bool
  | none => false
  | some n => n != 0

/-- JavaScript template interpolation of a nullable number:
`null` prints as `"null"`. -/
def numToString : Option Nat → String
  | none => "null"
  | some n => toString n

/-- JavaScript's `toUpperCase`, modelled character-wise (the catalog type
names are ASCII, where `Char.toUpper` agrees with JS). -/
def toUpperStr (s : String) : String := ⟨s.data.map Char.toUpper⟩

/-- Raw `information_schema.columns` row as consumed by `getFullType`
(`services/database.service.ts`, `schema-analyzer.service.ts`). -/
structure RawColumn where
  column_name : String
  data_type : String
  is_nullable : String
  column_default : Option String
  character_maximum_length : Option Nat
  numeric_precision : Option Nat
  numeric_scale : Option Nat
  deriving DecidableEq, Repr

/-- `getFullType` from `services/database.service.ts` lines 102-112 (identical
in `schema-analyzer.service.ts` lines 289-299): uppercase the base type, then
append `(length)` when `character_maximum_length` is truthy, else
`(precision,scale)` when `numeric_precision` is truthy. -/
def getFullType (c : RawColumn) : String :=
  let type := toUpperStr c.data_type
  if truthy c.character_maximum_length then
    type ++ "(" ++ numToString c.character_maximum_length ++ ")"
  else if truthy c.numeric_precision then
    type ++ "(" ++ numToString c.numeric_precision ++ "," ++ numToString c.numeric_scale ++ ")"
  else
    type

/-- Modelled from the spec (§4.1): the normalization rule as worded by the
specification — append `(length)` if a character length *is present*, else
`(precision,scale)` if a numeric precision *is present*; presence is
`Option.isSome`, with no truthiness test. Used to compare the spec's wording
against `getFullType`. -/
def getFullTypeSpec (c : RawColumn) : String :=
  let type := toUpperStr c.data_type
  match c.character_maximum_length with
  | some n => type ++ "(" ++ toString n ++ ")"
  | none =>
    match c.numeric_precision with
    | some p => type ++ "(" ++ toString p ++ "," ++ numToString c.numeric_scale ++ ")"
    | none => type

/-! ## Required columns (`generateInsertionGuide`) -/

/-- The filter from `generateInsertionGuide` (`services/analyzer.service.ts`
lines 64-65, identically `schema-analyzer.service.ts` lines 367-368):
`table.columns.filter((col) => !col.nullable && col.default_value === null)`. -/
def requiredColumns (t : Table) : List Column :=
  t.columns.filter (fun col => !col.nullable && col.default_value.isNone)

/-- The "Required columns" bullet lines the insertion guide prints for a
table (`services/analyzer.service.ts` lines 63-68). -/
def requiredColumnLines (t : Table) : List String :=
  (requiredColumns t).map (fun col => "- " ++ col.name ++ " (" ++ col.type ++ ")")

/-! ## Dependency resolver (`determineInsertionOrder`)

`visit` from `services/analyzer.service.ts` lines 98-116 (identical in
`schema-analyzer.service.ts` lines 306-326).  The TypeScript recursion is
bounded because `visiting` grows on every nested call and revisiting an
in-progress name throws; here the recursion is made structural with a fuel
argument.  `VErr.noFuel` is an artifact of the embedding: with the fuel used
by `determineInsertionOrder` it is never returned (`dio_err_spec`). -/

/-- Resolver failure: `cyclic t` models
`throw new Error("Circular dependency detected involving table: " + t)`;
`noFuel` is the (provably unreachable) fuel-exhaustion artifact. -/
inductive VErr where
  | cyclic (table : String)
  | noFuel
  deriving DecidableEq, Repr

/-- The message of the thrown error (`services/analyzer.service.ts` line 101). -/
def errMessage : VErr → String
  | .cyclic t => "Circular dependency detected involving table: " ++ t
  | .noFuel => "fuel exhausted (unreachable)"

/-- The resolver's mutable state: the `visited` set (as a list, membership
only) and the output `order`. The `visiting` set is the `stack` argument of
`visitF`, since additions and deletions bracket each recursive call. -/
structure VState where
  visited : List String
  order : List String
  deriving DecidableEq, Repr

/-- `visiting.delete(name); visited.add(name); order.push(name)` -/
def pushDone (name : String) (st : VState) : VState :=
  ⟨name :: st.visited, st.order ++ [name]⟩

/-- The recursive `visit` closure. `stack` holds the names currently
`visiting` (innermost first).  Per the source: return if visited; throw if
in-progress; otherwise mark in-progress, recurse into `depends_on` of the
found table (skipping recursion when no table has the name), then mark done
and append to the order. -/
def visitF (tables : List Table) : Nat → String → List String → VState → Except VErr VState
  | 0, _, _, _ => .error .noFuel
  | n + 1, name, stack, st =>
    if name ∈ st.visited then .ok st
    else if name ∈ stack then .error (.cyclic name)
    else
      match findTable tables name with
      | some t =>
        match t.depends_on.foldlM (fun acc d => visitF tables n d (name :: stack) acc) st with
        | .ok st' => .ok (pushDone name st')
        | .error e => .error e
      | none => .ok (pushDone name st)

/-- The `for (const dep of table.depends_on) visit(dep)` loop, as the fold
`visitF` performs over a dependency list. -/
def visitDepsF (tables : List Table) (n : Nat) (deps : List String)
    (stack : List String) (st : VState) : Except VErr VState :=
  deps.foldlM (fun acc d => visitF tables n d stack acc) st

/-- The outer `tables.forEach((table) => { if (!visited.has(table.name)) visit(table.name); })`
loop.  Fuel `tables.length + 1` bounds the `visiting` stack depth, which
never exceeds the number of distinct table names. -/
def runVisits (tables : List Table) : Except VErr VState :=
  tables.foldlM
    (fun st t =>
      if t.name ∈ st.visited then .ok st
      else visitF tables (tables.length + 1) t.name [] st)
    ⟨[], []⟩

/-- `determineInsertionOrder` from `services/analyzer.service.ts` lines
93-125: run the marking traversal over all tables and return the order,
or propagate the thrown error. -/
def determineInsertionOrder (tables : List Table) : Except VErr (List String) :=
  match runVisits tables with
  | .ok st => .ok st.order
  | .error e => .error e

/-- `analyze` from `services/analyzer.service.ts` lines 13-37, restricted to
its pure content: the catalog fetch is replaced by the already-constructed
`tables` argument and the file write is dropped.  When `llmtxt` is false the
insertion order is computed (propagating the resolver's error), otherwise
the tables are returned with no order. -/
def analyze (tables : List Table) (llmtxt : Bool) :
    Except VErr (List Table × Option (List String)) :=
  if !llmtxt then
    match determineInsertionOrder tables with
    | .ok ord => .ok (tables, some ord)
    | .error e => .error e
  else
    .ok (tables, none)

/-! ## The dependency relation and ordering predicates -/

/-- One `depends_on` edge as the traversal sees it: the (first) table named
`x` lists `y` in its `depends_on`. -/
def DepRel (tables : List Table) (x y : String) : Prop :=
  ∃ t, findTable tables x = some t ∧ y ∈ t.depends_on

/-- No `depends_on` cycle: no name reaches itself through one or more
`DepRel` edges.  (Every node on such a cycle is necessarily an input table
name, so this is exactly the intra-set acyclicity of the spec.) -/
def Acyclic (tables : List Table) : Prop :=
  ∀ x, ¬ Relation.TransGen (DepRel tables) x x

/-- `a` occurs strictly before `b` in `l`: `[a, b]` is a subsequence. -/
def precedes (l : List String) (a b : String) : Prop :=
  [a, b].Sublist l

/-! ## Unfolding equations and basic helpers -/

theorem visitF_zero (tables : List Table) (name : String) (stack : List String) (st : VState) :
    visitF tables 0 name stack st = .error .noFuel := rfl

theorem visitF_succ (tables : List Table) (n : Nat) (name : String) (stack : List String)
    (st : VState) :
    visitF tables (n + 1) name stack st =
      if name ∈ st.visited then .ok st
      else if name ∈ stack then .error (.cyclic name)
      else
        match findTable tables name with
        | some t =>
          match visitDepsF tables n t.depends_on (name :: stack) st with
          | .ok st' => .ok (pushDone name st')
          | .error e => .error e
        | none => .ok (pushDone name st) := rfl

theorem visitDepsF_nil (tables : List Table) (n : Nat) (stack : List String) (st : VState) :
    visitDepsF tables n [] stack st = .ok st := rfl

theorem visitDepsF_cons (tables : List Table) (n : Nat) (d : String) (ds : List String)
    (stack : List String) (st : VState) :
    visitDepsF tables n (d :: ds) stack st =
      match visitF tables n d stack st with
      | .ok st' => visitDepsF tables n ds stack st'
      | .error e => .error e := by
  show List.foldlM _ st (d :: ds) = _
  rw [List.foldlM_cons]
  cases visitF tables n d stack st <;> rfl

theorem findTable_mem {tables : List Table} {name : String} {t : Table}
    (h : findTable tables name = some t) : t ∈ tables ∧ t.name = name := by
  refine ⟨List.mem_of_find?_eq_some h, ?_⟩
  have := List.find?_some h
  exact eq_of_beq this

theorem findTable_eq_none {tables : List Table} {name : String}
    (h : findTable tables name = none) : name ∉ tableNames tables := by
  intro hmem
  obtain ⟨t, ht, hname⟩ := List.mem_map.mp hmem
  have := List.find?_eq_none.mp h t ht
  simp [hname] at this

theorem findTable_of_nodup {tables : List Table} {t : Table}
    (hnd : (tableNames tables).Nodup) (ht : t ∈ tables) :
    findTable tables t.name = some t := by
  induction tables with
  | nil => cases ht
  | cons u rest ih =>
    rcases List.mem_cons.mp ht with heq | hmem
    · subst heq
      show List.find? _ (t :: rest) = some t
      rw [List.find?_cons_of_pos _ (by simp)]
    · have hnd' : (tableNames rest).Nodup := (List.nodup_cons.mp hnd).2
      have hune : u.name ∉ tableNames rest := (List.nodup_cons.mp hnd).1
      have hne : u.name ≠ t.name := fun hEq => hune (hEq ▸ List.mem_map_of_mem Table.name hmem)
      show List.find? _ (u :: rest) = some t
      rw [List.find?_cons_of_neg _ (by simp [hne])]
      exact ih hnd' hmem

theorem precedes_append_right {l l₂ : List String} {a b : String}
    (h : precedes l a b) : precedes (l ++ l₂) a b :=
  h.trans (List.sublist_append_left l l₂)

theorem precedes_push {l : List String} {a b : String} (h : a ∈ l) :
    precedes (l ++ [b]) a b := by
  have h1 : List.Sublist [a] l := List.singleton_sublist.mpr h
  simpa [precedes] using h1.append (List.Sublist.refl [b])

theorem precedes_mem_left {l : List String} {a b : String} (h : precedes l a b) : a ∈ l :=
  h.subset (by simp)

theorem precedes_mem_right {l : List String} {a b : String} (h : precedes l a b) : b ∈ l :=
  h.subset (by simp)

theorem precedes_irrefl {l : List String} (hnd : l.Nodup) (a : String) :
    ¬ precedes l a a := by
  intro h
  have := h.nodup hnd
  simp at this

theorem precedes_asymm {l : List String} (hnd : l.Nodup) {a b : String}
    (h1 : precedes l a b) (h2 : precedes l b a) : a = b := by
  induction l with
  | nil => exact absurd (precedes_mem_left h1) (by simp)
  | cons x xs ih =>
    have hx := List.nodup_cons.mp hnd
    cases h1 with
    | cons _ h1' =>
      cases h2 with
      | cons _ h2' => exact ih hx.2 h1' h2'
      | cons₂ _ h2' => exact absurd (h1'.subset (by simp)) hx.1
    | cons₂ _ h1' =>
      cases h2 with
      | cons _ h2' => exact absurd (h2'.subset (by simp)) hx.1
      | cons₂ _ h2' => rfl

theorem precedes_trans {l : List String} (hnd : l.Nodup) {a b c : String}
    (h1 : precedes l a b) (h2 : precedes l b c) : precedes l a c := by
  induction l with
  | nil => exact absurd (precedes_mem_left h1) (by simp)
  | cons x xs ih =>
    have hx := List.nodup_cons.mp hnd
    cases h1 with
    | cons _ h1' =>
      cases h2 with
      | cons _ h2' => exact (ih hx.2 h1' h2').cons x
      | cons₂ _ h2' => exact absurd (h1'.subset (by simp)) hx.1
    | cons₂ _ h1' =>
      cases h2 with
      | cons _ h2' =>
        exact List.Sublist.cons₂ _ (List.singleton_sublist.mpr (h2'.subset (by simp)))
      | cons₂ _ h2' => exact List.Sublist.cons₂ _ h2'

/-! ## Success invariants of the traversal -/

/-- Invariant of the resolver state relative to the current `visiting`
stack: the emitted order has no duplicates, mirrors the visited set, is
disjoint from the stack, every emitted table was emitted after all its
dependencies, and every emitted name is an input name or a dependency
entry of an input table. -/
structure GoodSt (tables : List Table) (stack : List String) (st : VState) : Prop where
  nodup : st.order.Nodup
  mem_iff : ∀ x, x ∈ st.visited ↔ x ∈ st.order
  stack_not_visited : ∀ x ∈ stack, x ∉ st.visited
  deps_before : ∀ x ∈ st.order, ∀ t, findTable tables x = some t →
    ∀ d ∈ t.depends_on, precedes st.order d x
  provenance : ∀ x ∈ st.order, x ∈ tableNames tables ∨ ∃ t ∈ tables, x ∈ t.depends_on

theorem GoodSt.init (tables : List Table) (stack : List String) :
    GoodSt tables stack ⟨[], []⟩ where
  nodup := List.nodup_nil
  mem_iff := by simp
  stack_not_visited := by simp
  deps_before := by simp
  provenance := by simp

theorem GoodSt.grow_stack {tables : List Table} {stack : List String} {st : VState}
    {name : String} (hst : GoodSt tables stack st) (hnv : name ∉ st.visited) :
    GoodSt tables (name :: stack) st :=
  { hst with
    stack_not_visited := by
      intro x hx
      rcases List.mem_cons.mp hx with rfl | hx'
      · exact hnv
      · exact hst.stack_not_visited x hx' }

theorem GoodSt.push {tables : List Table} {stack : List String} {st : VState} {name : String}
    (hst : GoodSt tables (name :: stack) st) (hns : name ∉ stack)
    (hprov : name ∈ tableNames tables ∨ ∃ t ∈ tables, name ∈ t.depends_on)
    (hdeps : ∀ t, findTable tables name = some t → ∀ d ∈ t.depends_on, d ∈ st.order) :
    GoodSt tables stack (pushDone name st) where
  nodup := by
    have hname : name ∉ st.order :=
      fun hmem => hst.stack_not_visited name (by simp) ((hst.mem_iff name).mpr hmem)
    simp only [pushDone, List.nodup_append, List.nodup_cons]
    exact ⟨hst.nodup, by simp, by simpa using hname⟩
  mem_iff := by
    intro x
    simp only [pushDone, List.mem_cons, List.mem_append, List.mem_singleton]
    rw [hst.mem_iff x]
    tauto
  stack_not_visited := by
    intro x hx hmem
    rcases List.mem_cons.mp hmem with rfl | hmem'
    · exact hns hx
    · exact hst.stack_not_visited x (List.mem_cons_of_mem _ hx) hmem'
  deps_before := by
    intro x hx t ht d hd
    rcases List.mem_append.mp hx with hx' | hx'
    · exact precedes_append_right (hst.deps_before x hx' t ht d hd)
    · have hxname : x = name := by simpa using hx'
      subst hxname
      exact precedes_push (hdeps t ht d hd)
  provenance := by
    intro x hx
    rcases List.mem_append.mp hx with hx' | hx'
    · exact hst.provenance x hx'
    · have hxname : x = name := by simpa using hx'
      subst hxname
      exact hprov

/-- Induction statement for `visitF`: a successful visit preserves the
invariant, grows `visited` and `order` monotonically, and marks the visited
name done. -/
def VisitOk (tables : List Table) (n : Nat) : Prop :=
  ∀ name stack st st', visitF tables n name stack st = .ok st' →
    GoodSt tables stack st →
    (name ∈ tableNames tables ∨ ∃ t ∈ tables, name ∈ t.depends_on) →
    GoodSt tables stack st' ∧ (∀ x ∈ st.visited, x ∈ st'.visited) ∧
    (∃ suf, st'.order = st.order ++ suf) ∧ name ∈ st'.visited

/-- Induction statement for `visitDepsF`. -/
def VisitDepsOk (tables : List Table) (n : Nat) : Prop :=
  ∀ ds stack st st', visitDepsF tables n ds stack st = .ok st' →
    GoodSt tables stack st →
    (∀ d ∈ ds, d ∈ tableNames tables ∨ ∃ t ∈ tables, d ∈ t.depends_on) →
    GoodSt tables stack st' ∧ (∀ x ∈ st.visited, x ∈ st'.visited) ∧
    (∃ suf, st'.order = st.order ++ suf) ∧ (∀ d ∈ ds, d ∈ st'.visited)

theorem visitDepsOk_of_visitOk {tables : List Table} {n : Nat}
    (hP : VisitOk tables n) : VisitDepsOk tables n := by
  intro ds
  induction ds with
  | nil =>
    intro stack st st' h hst _
    rw [visitDepsF_nil] at h
    simp only [Except.ok.injEq] at h
    subst h
    exact ⟨hst, fun _ hx => hx, ⟨[], by simp⟩, by simp⟩
  | cons d ds ih =>
    intro stack st st' h hst hprov
    rw [visitDepsF_cons] at h
    cases hv : visitF tables n d stack st with
    | error e => rw [hv] at h; simp at h
    | ok st₁ =>
      rw [hv] at h
      obtain ⟨hst₁, hmono₁, ⟨suf₁, hsuf₁⟩, hdone⟩ :=
        hP d stack st st₁ hv hst (hprov d (by simp))
      obtain ⟨hst', hmono₂, ⟨suf₂, hsuf₂⟩, hds⟩ :=
        ih stack st₁ st' h hst₁ (fun d' hd' => hprov d' (by simp [hd']))
      refine ⟨hst', fun x hx => hmono₂ x (hmono₁ x hx),
        ⟨suf₁ ++ suf₂, by rw [hsuf₂, hsuf₁, List.append_assoc]⟩, ?_⟩
      intro d' hd'
      rcases List.mem_cons.mp hd' with rfl | hmem
      · exact hmono₂ _ hdone
      · exact hds _ hmem

theorem visitOk_succ {tables : List Table} {n : Nat}
    (hQ : VisitDepsOk tables n) : VisitOk tables (n + 1) := by
  intro name stack st st' h hst hname
  rw [visitF_succ] at h
  by_cases h1 : name ∈ st.visited
  · rw [if_pos h1] at h
    simp only [Except.ok.injEq] at h
    subst h
    exact ⟨hst, fun _ hx => hx, ⟨[], by simp⟩, h1⟩
  · rw [if_neg h1] at h
    by_cases h2 : name ∈ stack
    · rw [if_pos h2] at h; simp at h
    · rw [if_neg h2] at h
      split at h
      next t hf =>
        split at h
        next st₁ hd =>
          simp only [Except.ok.injEq] at h
          subst h
          have hprovd : ∀ d ∈ t.depends_on,
              d ∈ tableNames tables ∨ ∃ u ∈ tables, d ∈ u.depends_on :=
            fun d hd' => Or.inr ⟨t, (findTable_mem hf).1, hd'⟩
          obtain ⟨hst₁, hmono, ⟨suf, hsuf⟩, hall⟩ :=
            hQ t.depends_on (name :: stack) st st₁ hd (hst.grow_stack h1) hprovd
          refine ⟨hst₁.push h2 hname ?_, ?_, ?_, by simp [pushDone]⟩
          · intro u hu d hd'
            rw [hf] at hu
            injection hu with hu
            subst hu
            exact (hst₁.mem_iff d).mp (hall d hd')
          · intro x hx
            exact List.mem_cons_of_mem _ (hmono x hx)
          · exact ⟨suf ++ [name], by simp [pushDone, hsuf]⟩
        next e hd => simp at h
      next hf =>
        simp only [Except.ok.injEq] at h
        subst h
        refine ⟨(hst.grow_stack h1).push h2 hname
            (fun t ht => absurd ht (by simp [hf])), ?_, ⟨[name], rfl⟩, by simp [pushDone]⟩
        intro x hx
        exact List.mem_cons_of_mem _ hx

theorem visitOk_all (tables : List Table) : ∀ n, VisitOk tables n
  | 0 => by
    intro name stack st st' h
    rw [visitF_zero] at h
    simp at h
  | n + 1 => visitOk_succ (visitDepsOk_of_visitOk (visitOk_all tables n))

/-! ## Errors imply dependency cycles -/

/-- The `visiting` stack, read top-first, is a reversed `DepRel` path: each
table on the stack lists the one pushed after it among its dependencies. -/
def StackChain (tables : List Table) (l : List String) : Prop :=
  List.Chain' (fun a b => DepRel tables b a) l

theorem chain_mem_transGen {tables : List Table} {l : List String} {x y : String}
    (hc : StackChain tables (x :: l)) (hy : y ∈ l) :
    Relation.TransGen (DepRel tables) y x := by
  induction l generalizing x with
  | nil => cases hy
  | cons z l' ih =>
    have h1 : DepRel tables z x := (List.chain'_cons.mp hc).1
    have h2 : StackChain tables (z :: l') := (List.chain'_cons.mp hc).2
    rcases List.mem_cons.mp hy with rfl | hy'
    · exact Relation.TransGen.single h1
    · exact (ih h2 hy').tail h1

/-- Induction statement: an error of `visitF` is the fuel artifact or a
cycle error whose table really lies on a `DepRel` cycle. -/
def VisitErrCyc (tables : List Table) (n : Nat) : Prop :=
  ∀ name stack st e, visitF tables n name stack st = .error e →
    StackChain tables (name :: stack) →
    e = .noFuel ∨ ∃ c, e = .cyclic c ∧ Relation.TransGen (DepRel tables) c c

/-- Induction statement for `visitDepsF`. -/
def VisitDepsErrCyc (tables : List Table) (n : Nat) : Prop :=
  ∀ ds stack st e, visitDepsF tables n ds stack st = .error e →
    (∀ d ∈ ds, StackChain tables (d :: stack)) →
    e = .noFuel ∨ ∃ c, e = .cyclic c ∧ Relation.TransGen (DepRel tables) c c

theorem visitDepsErrCyc_of_visitErrCyc {tables : List Table} {n : Nat}
    (hP : VisitErrCyc tables n) : VisitDepsErrCyc tables n := by
  intro ds
  induction ds with
  | nil =>
    intro stack st e h _
    rw [visitDepsF_nil] at h
    simp at h
  | cons d ds ih =>
    intro stack st e h hch
    rw [visitDepsF_cons] at h
    cases hv : visitF tables n d stack st with
    | error e' =>
      rw [hv] at h
      injection h with h
      subst h
      exact hP d stack st e' hv (hch d (by simp))
    | ok st₁ =>
      rw [hv] at h
      exact ih stack st₁ e h (fun d' hd' => hch d' (by simp [hd']))

theorem visitErrCyc_succ {tables : List Table} {n : Nat}
    (hQ : VisitDepsErrCyc tables n) : VisitErrCyc tables (n + 1) := by
  intro name stack st e h hch
  rw [visitF_succ] at h
  by_cases h1 : name ∈ st.visited
  · rw [if_pos h1] at h; simp at h
  · rw [if_neg h1] at h
    by_cases h2 : name ∈ stack
    · rw [if_pos h2] at h
      injection h with h
      subst h
      exact Or.inr ⟨name, rfl, chain_mem_transGen hch h2⟩
    · rw [if_neg h2] at h
      split at h
      next t hf =>
        split at h
        next st₁ hd => simp at h
        next e' hd =>
          injection h with h
          subst h
          exact hQ t.depends_on (name :: stack) st e' hd
            (fun d hd' => List.chain'_cons.mpr ⟨⟨t, hf, hd'⟩, hch⟩)
      next hf => simp at h

theorem visitErrCyc_all (tables : List Table) : ∀ n, VisitErrCyc tables n
  | 0 => by
    intro name stack st e h _
    rw [visitF_zero] at h
    injection h with h
    exact Or.inl h.symm
  | n + 1 => visitErrCyc_succ (visitDepsErrCyc_of_visitErrCyc (visitErrCyc_all tables n))

/-! ## The chosen fuel is sufficient -/

/-- The distinct input table names. -/
def namesFinset (tables : List Table) : Finset String :=
  (tableNames tables).toFinset

/-- Induction statement: `visitF` never exhausts its fuel while the fuel
exceeds the number of distinct table names not yet on the stack. -/
def VisitFuelOk (tables : List Table) (n : Nat) : Prop :=
  ∀ name stack st, stack.Nodup → (∀ x ∈ stack, x ∈ tableNames tables) →
    (namesFinset tables \ stack.toFinset).card + 1 ≤ n →
    visitF tables n name stack st ≠ .error .noFuel

/-- Induction statement for `visitDepsF`. -/
def VisitDepsFuelOk (tables : List Table) (n : Nat) : Prop :=
  ∀ ds stack st, stack.Nodup → (∀ x ∈ stack, x ∈ tableNames tables) →
    (namesFinset tables \ stack.toFinset).card + 1 ≤ n →
    visitDepsF tables n ds stack st ≠ .error .noFuel

theorem visitDepsFuelOk_of_visitFuelOk {tables : List Table} {n : Nat}
    (hP : VisitFuelOk tables n) : VisitDepsFuelOk tables n := by
  intro ds
  induction ds with
  | nil =>
    intro stack st _ _ _ heq
    rw [visitDepsF_nil] at heq
    simp at heq
  | cons d ds ih =>
    intro stack st hnd hsub hcard heq
    rw [visitDepsF_cons] at heq
    cases hv : visitF tables n d stack st with
    | error e' =>
      rw [hv] at heq
      injection heq with heq
      subst heq
      exact hP d stack st hnd hsub hcard hv
    | ok st₁ =>
      rw [hv] at heq
      exact ih stack st₁ hnd hsub hcard heq

theorem visitFuelOk_succ {tables : List Table} {n : Nat}
    (hQ : VisitDepsFuelOk tables n) : VisitFuelOk tables (n + 1) := by
  intro name stack st hnd hsub hcard heq
  rw [visitF_succ] at heq
  by_cases h1 : name ∈ st.visited
  · rw [if_pos h1] at heq; simp at heq
  · rw [if_neg h1] at heq
    by_cases h2 : name ∈ stack
    · rw [if_pos h2] at heq; simp at heq
    · rw [if_neg h2] at heq
      split at heq
      next t hf =>
        split at heq
        next st₁ hd => simp at heq
        next e' hd =>
          injection heq with heq
          subst heq
          have hnameMem : name ∈ tableNames tables := by
            obtain ⟨htm, hteq⟩ := findTable_mem hf
            exact hteq ▸ List.mem_map_of_mem Table.name htm
          have hmemS : name ∈ namesFinset tables \ stack.toFinset :=
            Finset.mem_sdiff.mpr
              ⟨List.mem_toFinset.mpr hnameMem, fun hc => h2 (List.mem_toFinset.mp hc)⟩
          have hcard' : (namesFinset tables \ (name :: stack).toFinset).card =
              (namesFinset tables \ stack.toFinset).card - 1 := by
            rw [List.toFinset_cons, Finset.sdiff_insert, Finset.card_erase_of_mem hmemS]
          have hpos : 1 ≤ (namesFinset tables \ stack.toFinset).card :=
            Finset.card_pos.mpr ⟨name, hmemS⟩
          refine hQ t.depends_on (name :: stack) st
            (List.nodup_cons.mpr ⟨h2, hnd⟩) ?_ ?_ hd
          · intro x hx
            rcases List.mem_cons.mp hx with rfl | hx'
            · exact hnameMem
            · exact hsub x hx'
          · omega
      next hf => simp at heq

theorem visitFuelOk_all (tables : List Table) : ∀ n, VisitFuelOk tables n
  | 0 => by
    intro name stack st _ _ hcard
    omega
  | n + 1 => visitFuelOk_succ (visitDepsFuelOk_of_visitFuelOk (visitFuelOk_all tables n))

/-! ## Driver lemmas -/

/-- One iteration of the outer `tables.forEach` loop. -/
def stepVisit (tables : List Table) (st : VState) (t : Table) : Except VErr VState :=
  if t.name ∈ st.visited then .ok st
  else visitF tables (tables.length + 1) t.name [] st

theorem runVisits_eq (tables : List Table) :
    runVisits tables = tables.foldlM (stepVisit tables) ⟨[], []⟩ := rfl

theorem foldStep_cons (tables : List Table) (t : Table) (l : List Table) (st0 : VState) :
    (t :: l).foldlM (stepVisit tables) st0 =
      match stepVisit tables st0 t with
      | .ok st₁ => l.foldlM (stepVisit tables) st₁
      | .error e => .error e := by
  rw [List.foldlM_cons]
  cases stepVisit tables st0 t <;> rfl

theorem stepVisit_fuel (tables : List Table) (st : VState) (t : Table) :
    stepVisit tables st t ≠ .error .noFuel := by
  unfold stepVisit
  by_cases hv : t.name ∈ st.visited
  · rw [if_pos hv]; simp
  · rw [if_neg hv]
    refine visitFuelOk_all tables (tables.length + 1) t.name [] st (by simp) (by simp) ?_
    have h1 : (namesFinset tables \ ([] : List String).toFinset).card ≤ tables.length := by
      have h2 : (namesFinset tables).card ≤ (tableNames tables).length :=
        List.toFinset_card_le _
      have h3 : (tableNames tables).length = tables.length := List.length_map _ _
      simpa using h2.trans_eq h3
    omega

theorem foldVisits_ok {tables : List Table} :
    ∀ (l : List Table) (st0 stF : VState), (∀ t ∈ l, t ∈ tables) →
      GoodSt tables [] st0 →
      l.foldlM (stepVisit tables) st0 = .ok stF →
      GoodSt tables [] stF ∧ (∀ x ∈ st0.visited, x ∈ stF.visited) ∧
        ∀ t ∈ l, t.name ∈ stF.visited := by
  intro l
  induction l with
  | nil =>
    intro st0 stF _ hst h
    simp only [List.foldlM_nil] at h
    injection h with h
    subst h
    exact ⟨hst, fun _ hx => hx, by simp⟩
  | cons t l ih =>
    intro st0 stF hsub hst h
    rw [foldStep_cons] at h
    cases hstep : stepVisit tables st0 t with
    | error e => rw [hstep] at h; simp at h
    | ok st₁ =>
      rw [hstep] at h
      have hsub' : ∀ u ∈ l, u ∈ tables := fun u hu => hsub u (by simp [hu])
      have hkey : GoodSt tables [] st₁ ∧ (∀ x ∈ st0.visited, x ∈ st₁.visited) ∧
          t.name ∈ st₁.visited := by
        unfold stepVisit at hstep
        by_cases hv : t.name ∈ st0.visited
        · rw [if_pos hv] at hstep
          injection hstep with hstep
          subst hstep
          exact ⟨hst, fun _ hx => hx, hv⟩
        · rw [if_neg hv] at hstep
          have hname : t.name ∈ tableNames tables :=
            List.mem_map_of_mem Table.name (hsub t (by simp))
          obtain ⟨hst₁, hmono, _, hdone⟩ :=
            visitOk_all tables (tables.length + 1) t.name [] st0 st₁ hstep hst (Or.inl hname)
          exact ⟨hst₁, hmono, hdone⟩
      obtain ⟨hst₁, hmono₁, hdone⟩ := hkey
      obtain ⟨hstF, hmono₂, hall⟩ := ih st₁ stF hsub' hst₁ h
      refine ⟨hstF, fun x hx => hmono₂ x (hmono₁ x hx), ?_⟩
      intro u hu
      rcases List.mem_cons.mp hu with rfl | hu'
      · exact hmono₂ _ hdone
      · exact hall u hu'

theorem foldVisits_err {tables : List Table} :
    ∀ (l : List Table) (st0 : VState) (e : VErr),
      l.foldlM (stepVisit tables) st0 = .error e →
      ∃ c, e = .cyclic c ∧ Relation.TransGen (DepRel tables) c c := by
  intro l
  induction l with
  | nil =>
    intro st0 e h
    simp only [List.foldlM_nil] at h
    exact Except.noConfusion h
  | cons t l ih =>
    intro st0 e h
    rw [foldStep_cons] at h
    cases hstep : stepVisit tables st0 t with
    | ok st₁ =>
      rw [hstep] at h
      exact ih st₁ e h
    | error e' =>
      rw [hstep] at h
      injection h with h
      subst h
      have hnofuel : e' ≠ .noFuel := fun hEq => stepVisit_fuel tables st0 t (hEq ▸ hstep)
      unfold stepVisit at hstep
      by_cases hv : t.name ∈ st0.visited
      · rw [if_pos hv] at hstep; simp at hstep
      · rw [if_neg hv] at hstep
        have hchain : StackChain tables [t.name] := List.chain'_singleton _
        rcases visitErrCyc_all tables (tables.length + 1) t.name [] st0 e' hstep hchain with
          hEq | hcyc
        · exact absurd hEq hnofuel
        · exact hcyc

/-- On success, `determineInsertionOrder` emits a duplicate-free order that
contains every input table name, in which every emitted table follows all
entries of its `depends_on` list, and whose extra entries (beyond the input
names) are dependency targets of input tables. -/
theorem dio_ok_spec {tables : List Table} {order : List String}
    (h : determineInsertionOrder tables = .ok order) :
    order.Nodup ∧ (∀ t ∈ tables, t.name ∈ order) ∧
      (∀ x ∈ order, ∀ t, findTable tables x = some t →
        ∀ d ∈ t.depends_on, precedes order d x) ∧
      (∀ x ∈ order, x ∈ tableNames tables ∨ ∃ t ∈ tables, x ∈ t.depends_on) := by
  unfold determineInsertionOrder at h
  cases hrv : runVisits tables with
  | error e => rw [hrv] at h; simp at h
  | ok st =>
    rw [hrv] at h
    injection h with h
    subst h
    rw [runVisits_eq] at hrv
    obtain ⟨hst, _, hall⟩ :=
      foldVisits_ok tables ⟨[], []⟩ st (fun _ ht => ht) (GoodSt.init tables []) hrv
    exact ⟨hst.nodup, fun t ht => (hst.mem_iff t.name).mp (hall t ht),
      hst.deps_before, hst.provenance⟩

/-- On failure, the error is a cycle error and the named table lies on a
genuine `depends_on` cycle; the fuel artifact never escapes. -/
theorem dio_err_spec {tables : List Table} {e : VErr}
    (h : determineInsertionOrder tables = .error e) :
    ∃ c, e = .cyclic c ∧ Relation.TransGen (DepRel tables) c c := by
  unfold determineInsertionOrder at h
  cases hrv : runVisits tables with
  | ok st => rw [hrv] at h; simp at h
  | error e' =>
    rw [hrv] at h
    injection h with h
    subst h
    rw [runVisits_eq] at hrv
    exact foldVisits_err tables ⟨[], []⟩ e' hrv

/-- An acyclic `depends_on` relation guarantees the resolver succeeds. -/
theorem dio_acyclic_isOk {tables : List Table} (hacyc : Acyclic tables) :
    ∃ order, determineInsertionOrder tables = .ok order := by
  cases hres : determineInsertionOrder tables with
  | ok order => exact ⟨order, rfl⟩
  | error e =>
    obtain ⟨c, _, hcyc⟩ := dio_err_spec hres
    exact absurd hcyc (hacyc c)

/-- On success, transitive dependence is reflected in the order: if `x`
reaches `y` through one or more `depends_on` edges, `y` is emitted strictly
before `x`. -/
theorem transGen_precedes {tables : List Table} {order : List String}
    (h : determineInsertionOrder tables = .ok order) :
    ∀ x y, Relation.TransGen (DepRel tables) x y → precedes order y x := by
  obtain ⟨hnd, hall, hdeps, _⟩ := dio_ok_spec h
  intro x y hxy
  induction hxy with
  | single h1 =>
    obtain ⟨t, hf, hmem⟩ := h1
    obtain ⟨ht, hname⟩ := findTable_mem hf
    exact hdeps x (hname ▸ hall t ht) t hf _ hmem
  | tail hab h2 ih =>
    obtain ⟨t, hf, hmem⟩ := h2
    obtain ⟨ht, hname⟩ := findTable_mem hf
    exact precedes_trans hnd (hdeps _ (hname ▸ hall t ht) t hf _ hmem) ih

/-- Acyclicity follows from any strictly decreasing rank function. -/
theorem acyclic_of_rank {tables : List Table} (f : String → Nat)
    (hf : ∀ x y, DepRel tables x y → f y < f x) : Acyclic tables := by
  intro x hx
  have hlt : ∀ a b, Relation.TransGen (DepRel tables) a b → f b < f a := by
    intro a b h
    induction h with
    | single h1 => exact hf _ _ h1
    | tail _ h2 ih => exact lt_trans (hf _ _ h2) ih
  exact lt_irrefl (f x) (hlt x x hx)

/-! ## Core tables (schema digest) -/

/-- The core-table selection of `OutputService.generateLLMsTxt`
(`services/output.service.ts` line 106):
`tables.filter(table => table.foreign_keys.length > 0)` — outgoing foreign
keys, original order, no sorting. -/
def coreTablesOut (tables : List Table) : List Table :=
  tables.filter (fun t => decide (0 < t.foreign_keys.length))

/-- `getTableReferences` (`schema-analyzer.service.ts` lines 607-625) with
the catalog modelled by the analyzed table set: the distinct names of the
tables holding a foreign key that references `name`. -/
def getTableReferences (tables : List Table) (name : String) : List String :=
  (tables.filter (fun t => t.foreign_keys.any (fun fk => fk.referenced_table == name))).map
    Table.name

/-- Incoming-reference count used as the ranking key. -/
def referenceCount (tables : List Table) (name : String) : Nat :=
  (getTableReferences tables name).length

/-- `identifyCoreTables` (`schema-analyzer.service.ts` lines 577-593): keep
the tables with a positive incoming-reference count, sorted by descending
count (stable sort, as JavaScript's). -/
def identifyCoreTables (tables : List Table) : List Table :=
  (tables.filter (fun t => decide (0 < referenceCount tables t.name))).mergeSort
    (fun a b => decide (referenceCount tables b.name ≤ referenceCount tables a.name))

/-! ## Enum value rendering (schema digest) -/

/-- Enum labels as delivered to the digest renderer: either the native
array, or the serialized string form; strings are modelled as character
lists. -/
inductive EnumVals where
  | arr (values : List (List Char))
  | str (raw : List Char)

/-- JavaScript's `Array.prototype.join(sep)`. -/
def joinSep (sep : List Char) : List (List Char) → List Char
  | [] => []
  | [s] => s
  | s :: rest => s ++ sep ++ joinSep sep rest

/-- `replace(/[{"}]/g, '')`: delete every brace and double-quote character
(`schema-analyzer.service.ts` line 456). -/
def stripBracesQuotes (s : List Char) : List Char :=
  s.filter (fun c => !(c == '{' || c == '"' || c == '}'))

/-- JavaScript's `String.prototype.split(',')`: one piece per comma-separated
segment, an empty trailing/leading piece included. -/
def splitComma : List Char → List (List Char)
  | [] => [[]]
  | c :: cs =>
    match splitComma cs with
    | [] => [[]]
    | piece :: rest => if c == ',' then [] :: piece :: rest else (c :: piece) :: rest

/-- The "Allowed values" rendering of `generateLLMsTxt`
(`schema-analyzer.service.ts` lines 452-457): a native array is joined with
`", "` directly; a string form is first stripped of braces/quotes and split
at every comma. -/
def renderEnumValues : EnumVals → List Char
  | .arr values => joinSep [',', ' '] values
  | .str raw => joinSep [',', ' '] (splitComma (stripBracesQuotes raw))

/-- Modelled from the spec (§4.3): the delimited string representation of an
enum value list — brace-delimited, comma-separated, values quoted (the
Postgres `array_agg` text form the digest receives). -/
def delimitedForm (values : List (List Char)) : List Char :=
  '{' :: (joinSep [','] (values.map (fun s => '"' :: (s ++ ['"']))) ++ ['}'])

theorem joinSep_cons₂ (sep : List Char) (a b : List Char) (r : List (List Char)) :
    joinSep sep (a :: b :: r) = a ++ sep ++ joinSep sep (b :: r) := rfl

theorem splitComma_ne_nil : ∀ s, splitComma s ≠ []
  | [] => by simp [splitComma]
  | c :: cs => by
    have := splitComma_ne_nil cs
    unfold splitComma
    cases h : splitComma cs with
    | nil => simp
    | cons piece rest =>
      by_cases hc : c = ','
      · simp [hc]
      · simp [hc]

theorem splitComma_no_comma {s : List Char} (h : ',' ∉ s) : splitComma s = [s] := by
  induction s with
  | nil => rfl
  | cons c cs ih =>
    have hc : ¬(c = ',') := fun hEq => h (hEq ▸ List.mem_cons_self c cs)
    have ih' := ih (fun hmem => h (List.mem_cons_of_mem c hmem))
    unfold splitComma
    rw [ih']
    simp [hc]

theorem splitComma_append {s : List Char} (h : ',' ∉ s) :
    ∀ (u piece : List Char) (rest : List (List Char)), splitComma u = piece :: rest →
      splitComma (s ++ u) = (s ++ piece) :: rest := by
  induction s with
  | nil => intro u piece rest hu; simpa using hu
  | cons c s' ih =>
    intro u piece rest hu
    have hc : ¬(c = ',') := fun hEq => h (hEq ▸ List.mem_cons_self c s')
    have ihs := ih (fun hmem => h (List.mem_cons_of_mem c hmem)) u piece rest hu
    show splitComma (c :: (s' ++ u)) = _
    unfold splitComma
    rw [ihs]
    simp [hc]

theorem splitComma_cons (c : Char) (cs : List Char) :
    splitComma (c :: cs) =
      match splitComma cs with
      | [] => [[]]
      | piece :: rest => if c == ',' then [] :: piece :: rest else (c :: piece) :: rest := by
  rw [splitComma]

theorem splitComma_comma_cons (u : List Char) :
    splitComma (',' :: u) = [] :: splitComma u := by
  rw [splitComma_cons]
  cases hu : splitComma u with
  | nil => exact absurd hu (splitComma_ne_nil u)
  | cons piece rest => simp

theorem splitComma_joinSep {l : List (List Char)} (hne : l ≠ [])
    (h : ∀ s ∈ l, ',' ∉ s) : splitComma (joinSep [','] l) = l := by
  induction l with
  | nil => exact absurd rfl hne
  | cons s rest ih =>
    cases rest with
    | nil =>
      show splitComma (joinSep [','] [s]) = [s]
      exact splitComma_no_comma (h s (by simp))
    | cons b r =>
      have hrest := ih (by simp) (fun x hx => h x (List.mem_cons_of_mem s hx))
      rw [joinSep_cons₂]
      have hcomma : splitComma (',' :: joinSep [','] (b :: r)) =
          [] :: splitComma (joinSep [','] (b :: r)) := splitComma_comma_cons _
      rw [List.append_assoc]
      have := splitComma_append (h s (by simp)) ([','] ++ joinSep [','] (b :: r))
        [] (splitComma (joinSep [','] (b :: r))) (by simpa using hcomma)
      rw [this]
      simp [hrest]

/-- Character cleanliness: the value contains no comma, brace, or quote. -/
def CleanVal (s : List Char) : Prop :=
  ∀ c ∈ s, ¬(c = ',' ∨ c = '{' ∨ c = '}' ∨ c = '"')

instance cleanValDecidable (s : List Char) : Decidable (CleanVal s) :=
  inferInstanceAs (Decidable (∀ c ∈ s, ¬(c = ',' ∨ c = '{' ∨ c = '}' ∨ c = '"')))

theorem strip_clean {s : List Char} (h : CleanVal s) : stripBracesQuotes s = s := by
  unfold stripBracesQuotes
  apply List.filter_eq_self.mpr
  intro c hc
  have := h c hc
  simp only [not_or] at this
  simp [this.2.1, this.2.2.1, this.2.2.2]

theorem strip_quote_val {s : List Char} (h : CleanVal s) :
    stripBracesQuotes ('"' :: (s ++ ['"'])) = s := by
  have h1 : stripBracesQuotes s = s := strip_clean h
  unfold stripBracesQuotes at h1 ⊢
  rw [List.filter_cons_of_neg (by simp), List.filter_append, h1]
  simp

theorem joinSep_cons_of_ne (sep : List Char) (a : List Char) {l : List (List Char)}
    (h : l ≠ []) : joinSep sep (a :: l) = a ++ sep ++ joinSep sep l := by
  cases l with
  | nil => exact absurd rfl h
  | cons b r => rfl

theorem strip_append (s t : List Char) :
    stripBracesQuotes (s ++ t) = stripBracesQuotes s ++ stripBracesQuotes t :=
  List.filter_append s t

theorem strip_comma : stripBracesQuotes [','] = [','] := rfl

theorem strip_joinSep_quoted {l : List (List Char)} (h : ∀ s ∈ l, CleanVal s) :
    stripBracesQuotes (joinSep [','] (l.map (fun s => '"' :: (s ++ ['"'])))) =
      joinSep [','] l := by
  induction l with
  | nil => rfl
  | cons s rest ih =>
    cases rest with
    | nil =>
      show stripBracesQuotes ('"' :: (s ++ ['"'])) = s
      exact strip_quote_val (h s (by simp))
    | cons b r =>
      have ih' := ih (fun x hx => h x (List.mem_cons_of_mem s hx))
      have hmapne : (b :: r).map (fun s => '"' :: (s ++ ['"'])) ≠ [] := by simp
      rw [List.map_cons, joinSep_cons_of_ne _ _ hmapne, joinSep_cons₂]
      rw [strip_append, strip_append, strip_comma, ih',
        strip_quote_val (h s (by simp))]

theorem strip_delimitedForm {l : List (List Char)} (h : ∀ s ∈ l, CleanVal s) :
    stripBracesQuotes (delimitedForm l) = joinSep [','] l := by
  have h1 := strip_joinSep_quoted h
  unfold delimitedForm
  unfold stripBracesQuotes at h1 ⊢
  rw [List.filter_cons_of_neg (by simp), List.filter_append, h1]
  simp

/-! ## Concrete fixtures used by the claim theorems -/

/-- A referenced-only table: `customers(id PK)`, no foreign keys. -/
def tCustomers0 : Table :=
  ⟨"customers", "public", [], ["id"], [], [], [], []⟩

/-- `orders(id PK, customer_id FK -> customers.id)`. -/
def tOrders0 : Table :=
  ⟨"orders", "public", [], ["id"],
    [⟨"customer_id", "customers", "id", "NO ACTION", "NO ACTION"⟩], [], [], ["customers"]⟩

/-- `items(customer_id FK -> customers.id)`. -/
def tItems0 : Table :=
  ⟨"items", "public", [], ["id"],
    [⟨"customer_id", "customers", "id", "NO ACTION", "NO ACTION"⟩], [], [], ["customers"]⟩

/-- `payments(customer_id FK -> customers.id)`. -/
def tPayments0 : Table :=
  ⟨"payments", "public", [], ["id"],
    [⟨"customer_id", "customers", "id", "NO ACTION", "NO ACTION"⟩], [], [], ["customers"]⟩

/-- Input list for the core-table example: `customers` is referenced by 3
tables and references none; `orders` is referenced by none. -/
def exC4 : List Table := [tCustomers0, tOrders0, tItems0, tPayments0]

/-- A table whose only dependency target `X` is outside the input set. -/
def tOutDep : Table :=
  ⟨"A", "public", [], [],
    [⟨"x_id", "X", "id", "NO ACTION", "NO ACTION"⟩], [], [], ["X"]⟩

/-- Cycle half `A -> B`. -/
def tCycA : Table :=
  ⟨"A", "public", [], [],
    [⟨"b_id", "B", "id", "NO ACTION", "NO ACTION"⟩], [], [], ["B"]⟩

/-- Cycle half `B -> A`. -/
def tCycB : Table :=
  ⟨"B", "public", [], [],
    [⟨"a_id", "A", "id", "NO ACTION", "NO ACTION"⟩], [], [], ["A"]⟩

/-- Three-cycle member `B -> C`. -/
def tCyc3B : Table :=
  ⟨"B", "public", [], [],
    [⟨"c_id", "C", "id", "NO ACTION", "NO ACTION"⟩], [], [], ["C"]⟩

/-- Three-cycle member `C -> A`. -/
def tCyc3C : Table :=
  ⟨"C", "public", [], [],
    [⟨"a_id", "A", "id", "NO ACTION", "NO ACTION"⟩], [], [], ["A"]⟩

/-- A three-cycle `A -> B -> C -> A` with no mutual two-cycle. -/
def exCyc3 : List Table := [tCycA, tCyc3B, tCyc3C]

/-- A self-referencing table: `employees.manager_id -> employees.id`. -/
def tSelf : Table :=
  ⟨"employees", "public", [], ["id"],
    [⟨"manager_id", "employees", "id", "NO ACTION", "NO ACTION"⟩], [], [], ["employees"]⟩

/-- A table with a duplicated dependency entry (two FKs to the same target). -/
def tDupDeps : Table :=
  ⟨"A", "public", [], [],
    [⟨"b1_id", "B", "id", "NO ACTION", "NO ACTION"⟩,
     ⟨"b2_id", "B", "id", "NO ACTION", "NO ACTION"⟩], [], [], ["B", "B"]⟩

/-- A dependency-free table `B`. -/
def tBPlain : Table :=
  ⟨"B", "public", [], [], [], [], [], []⟩

/-- Non-nullable column with no default: must be supplied by an inserter. -/
def colRequired : Column := ⟨"customer_id", "INTEGER", false, none⟩

/-- Non-nullable column with default `"0"`. -/
def colDefaulted : Column := ⟨"status", "INTEGER", false, some "0"⟩

/-- Nullable column with no default. -/
def colNullable : Column := ⟨"note", "TEXT", true, none⟩

/-- A table carrying the three representative columns. -/
def tOrdersCols : Table :=
  ⟨"orders", "public", [colRequired, colDefaulted, colNullable], ["id"], [], [], [], []⟩

/-- Raw column `{data_type:"character varying", char_len:255}`. -/
def rcVarchar : RawColumn := ⟨"name", "character varying", "NO", none, some 255, none, none⟩

/-- Raw column `{data_type:"numeric", num_precision:10, num_scale:2}`. -/
def rcNumeric : RawColumn := ⟨"price", "numeric", "NO", none, none, some 10, some 2⟩

/-- Raw column `{data_type:"integer"}` with no length or precision. -/
def rcInteger : RawColumn := ⟨"qty", "integer", "YES", none, none, none, none⟩

/-- Raw column whose character length is present but zero (JS-falsy). -/
def rcZeroLen : RawColumn := ⟨"weird", "character varying", "YES", none, some 0, some 10, some 2⟩

/-- An enum value list with one label that contains a comma. -/
def evCommaVal : List Char := ['a', ',', 'b']

/-- `Acyclic` holds for the two-table example `customers <- orders`. -/
theorem acyclic_pair : Acyclic [tCustomers0, tOrders0] := by
  apply acyclic_of_rank (fun s => if s = "orders" then 1 else 0)
  intro x y hxy
  obtain ⟨t, hf, hy⟩ := hxy
  obtain ⟨ht, hname⟩ := findTable_mem hf
  rcases List.mem_cons.mp ht with rfl | ht'
  · simp [tCustomers0] at hy
  · rcases List.mem_cons.mp ht' with rfl | ht''
    · have hx : x = "orders" := by rw [← hname]; rfl
      have hy' : y = "customers" := by simpa [tOrders0] using hy
      subst hx
      subst hy'
      simp
    · simp at ht''

/-! ## Claim theorems -/

/-- C1, counterexample: on the acyclic input `[A]` where `A` depends only on
the out-of-set name `X`, the resolver returns `["X", "A"]` — the order is
*not* a permutation of the input table names, since `X` is not one of them
(`visit` pushes a name onto the order even when no input table carries it). -/
theorem resolver_output_not_permutation :
    determineInsertionOrder [tOutDep] = .ok ["X", "A"] ∧
    "X" ∉ tableNames [tOutDep] :=
  ⟨rfl, by decide⟩

/-- C1 (amended): for every input table list whose `depends_on` relation has
no cycles, the resolver succeeds; its output contains every input table name
exactly once (it is duplicate-free), but it may also contain dependency
targets outside the input set — every output entry is an input name or a
`depends_on` entry of an input table; and (for unique table names) every
dependency `D` of a table `T`, whether or not `D` is an input name, appears
strictly before `T`. -/
theorem resolver_acyclic_correct (tables : List Table) (hacyc : Acyclic tables) :
    ∃ order, determineInsertionOrder tables = .ok order ∧ order.Nodup ∧
      (∀ t ∈ tables, t.name ∈ order) ∧
      (∀ x ∈ order, x ∈ tableNames tables ∨ ∃ t ∈ tables, x ∈ t.depends_on) ∧
      ((tableNames tables).Nodup → ∀ t ∈ tables, ∀ d ∈ t.depends_on,
        precedes order d t.name) := by
  obtain ⟨order, hord⟩ := dio_acyclic_isOk hacyc
  obtain ⟨hnd, hall, hdeps, hprov⟩ := dio_ok_spec hord
  refine ⟨order, hord, hnd, hall, hprov, ?_⟩
  intro hndn t ht d hd
  exact hdeps t.name (hall t ht) t (findTable_of_nodup hndn ht) d hd

/-- Witness for C1 (amended) at `[customers, orders]`. -/
theorem resolver_acyclic_correct_witness :
    Acyclic [tCustomers0, tOrders0] ∧
    (∃ order, determineInsertionOrder [tCustomers0, tOrders0] = .ok order ∧ order.Nodup ∧
      (∀ t ∈ [tCustomers0, tOrders0], t.name ∈ order) ∧
      (∀ x ∈ order, x ∈ tableNames [tCustomers0, tOrders0] ∨
        ∃ t ∈ [tCustomers0, tOrders0], x ∈ t.depends_on) ∧
      ((tableNames [tCustomers0, tOrders0]).Nodup → ∀ t ∈ [tCustomers0, tOrders0],
        ∀ d ∈ t.depends_on, precedes order d t.name)) :=
  ⟨acyclic_pair, resolver_acyclic_correct _ acyclic_pair⟩

/-- C2: for every input table list containing a true dependency cycle of
length at least two — two *distinct* names, each reachable from the other
through one or more `depends_on` edges (a mutual pair A⇄B, a loop
A→B→C→A, or any longer cycle) — the resolver fails: it returns the cycle
error (whose message, per `errMessage`, names the table that was being
revisited while in-progress), that table really lies on a `depends_on`
cycle, and no order is returned. -/
theorem resolver_cycle_fails (tables : List Table) (x y : String) (hxy : x ≠ y)
    (h1 : Relation.TransGen (DepRel tables) x y)
    (h2 : Relation.TransGen (DepRel tables) y x) :
    ∃ c, determineInsertionOrder tables = .error (.cyclic c) ∧
      errMessage (.cyclic c) = "Circular dependency detected involving table: " ++ c ∧
      Relation.TransGen (DepRel tables) c c := by
  cases hres : determineInsertionOrder tables with
  | ok order =>
    have hp1 := transGen_precedes hres x y h1
    have hp2 := transGen_precedes hres y x h2
    exact absurd (precedes_asymm (dio_ok_spec hres).1 hp2 hp1) hxy
  | error e =>
    obtain ⟨c, hc, hcyc⟩ := dio_err_spec hres
    exact ⟨c, by rw [hc], rfl, hcyc⟩

/-- Witness for C2 at the three-cycle `[A -> B, B -> C, C -> A]`, which
contains no mutual two-cycle. -/
theorem resolver_cycle_fails_witness :
    (("A" : String) ≠ "B" ∧ Relation.TransGen (DepRel exCyc3) "A" "B" ∧
      Relation.TransGen (DepRel exCyc3) "B" "A") ∧
    (∃ c, determineInsertionOrder exCyc3 = .error (.cyclic c) ∧
      errMessage (.cyclic c) = "Circular dependency detected involving table: " ++ c ∧
      Relation.TransGen (DepRel exCyc3) c c) := by
  have dAB : DepRel exCyc3 "A" "B" := ⟨tCycA, rfl, by decide⟩
  have dBC : DepRel exCyc3 "B" "C" := ⟨tCyc3B, rfl, by decide⟩
  have dCA : DepRel exCyc3 "C" "A" := ⟨tCyc3C, rfl, by decide⟩
  have h1 : Relation.TransGen (DepRel exCyc3) "A" "B" := Relation.TransGen.single dAB
  have h2 : Relation.TransGen (DepRel exCyc3) "B" "A" :=
    Relation.TransGen.tail (Relation.TransGen.single dBC) dCA
  exact ⟨⟨by decide, h1, h2⟩, resolver_cycle_fails exCyc3 "A" "B" (by decide) h1 h2⟩

/-- C3, counterexample: a single table whose `depends_on` contains its own
name (and no other dependency, so the rest of the relation is trivially
acyclic) makes the resolver fail with the cycle error — resolution does
*not* succeed, because the table is already `in-progress` when its own
dependency list is visited. -/
theorem self_reference_triggers_error :
    determineInsertionOrder [tSelf] = .error (.cyclic "employees") := rfl

/-- C3 (amended): a self-referencing foreign key DOES trigger the cycle
error: for every input list with unique table names in which some table
lists its own name in `depends_on`, the resolver fails with the cycle error
and returns no order. -/
theorem resolver_self_loop_fails (tables : List Table) (T : Table)
    (hnd : (tableNames tables).Nodup) (hT : T ∈ tables) (hself : T.name ∈ T.depends_on) :
    ∃ c, determineInsertionOrder tables = .error (.cyclic c) ∧
      Relation.TransGen (DepRel tables) c c := by
  cases hres : determineInsertionOrder tables with
  | ok order =>
    obtain ⟨hond, hall, hdeps, _⟩ := dio_ok_spec hres
    have h1 : precedes order T.name T.name :=
      hdeps T.name (hall T hT) T (findTable_of_nodup hnd hT) T.name hself
    exact absurd h1 (precedes_irrefl hond T.name)
  | error e =>
    obtain ⟨c, hc, hcyc⟩ := dio_err_spec hres
    exact ⟨c, by rw [hc], hcyc⟩

/-- Witness for C3 (amended) at the self-loop `[employees -> employees]`. -/
theorem resolver_self_loop_fails_witness :
    ((tableNames [tSelf]).Nodup ∧ tSelf ∈ [tSelf] ∧ tSelf.name ∈ tSelf.depends_on) ∧
    (∃ c, determineInsertionOrder [tSelf] = .error (.cyclic c) ∧
      Relation.TransGen (DepRel [tSelf]) c c) :=
  ⟨⟨by decide, by decide, by decide⟩,
    resolver_self_loop_fails [tSelf] tSelf (by decide) (by decide) (by decide)⟩

/-- C10: whenever the resolver returns without error — duplicate
`depends_on` entries, self-references handled, out-of-set targets included —
no name appears twice in the output: the emitted order is duplicate-free. -/
theorem resolver_output_nodup {tables : List Table} {order : List String}
    (h : determineInsertionOrder tables = .ok order) : order.Nodup :=
  (dio_ok_spec h).1

/-- Witness for C10 at an input with duplicated dependency entries. -/
theorem resolver_output_nodup_witness :
    determineInsertionOrder [tDupDeps, tBPlain] = .ok ["B", "A"] ∧
    (["B", "A"] : List String).Nodup :=
  ⟨rfl, @resolver_output_nodup [tDupDeps, tBPlain] ["B", "A"] rfl⟩

/-- C6, counterexample: the out-of-set dependency target `customers` of the
single input table `orders` is *not* excluded from the ordering — the
resolver emits it, first, in the returned order. -/
theorem unknown_target_not_excluded :
    determineInsertionOrder [tOrders0] = .ok ["customers", "orders"] ∧
    "customers" ∉ tableNames [tOrders0] :=
  ⟨rfl, by decide⟩

/-- C6 (amended): visiting a `depends_on` target that is no input table
raises no error and contributes no edges — the visit returns immediately,
treating the target as satisfied (it is marked visited, skipping any later
visit) — but the target is *not* excluded from the ordering: it is appended
to the output order, and on success every such target referenced by an
input table occurs in the returned order. -/
theorem unknown_target_skipped_but_ordered (tables : List Table) (d : String)
    (hnone : findTable tables d = none) :
    (∀ n stack st, d ∉ stack →
      visitF tables (n + 1) d stack st = .ok (if d ∈ st.visited then st else pushDone d st)) ∧
    d ∉ tableNames tables ∧
    (∀ order, determineInsertionOrder tables = .ok order → (tableNames tables).Nodup →
      ∀ t ∈ tables, d ∈ t.depends_on → d ∈ order) := by
  refine ⟨?_, findTable_eq_none hnone, ?_⟩
  · intro n stack st hstack
    rw [visitF_succ]
    by_cases hv : d ∈ st.visited
    · rw [if_pos hv, if_pos hv]
    · rw [if_neg hv, if_neg hstack, if_neg hv, hnone]
  · intro order hord hndn t ht hd
    obtain ⟨_, hall, hdeps, _⟩ := dio_ok_spec hord
    exact precedes_mem_left (hdeps t.name (hall t ht) t (findTable_of_nodup hndn ht) d hd)

/-- Witness for C6 (amended) at `[orders]` with target `customers`. -/
theorem unknown_target_skipped_but_ordered_witness :
    findTable [tOrders0] "customers" = none ∧
    ((∀ n stack st, "customers" ∉ stack →
      visitF [tOrders0] (n + 1) "customers" stack st =
        .ok (if "customers" ∈ st.visited then st else pushDone "customers" st)) ∧
    "customers" ∉ tableNames [tOrders0] ∧
    (∀ order, determineInsertionOrder [tOrders0] = .ok order →
      (tableNames [tOrders0]).Nodup →
      ∀ t ∈ [tOrders0], "customers" ∈ t.depends_on → "customers" ∈ order)) :=
  ⟨rfl, unknown_target_skipped_but_ordered [tOrders0] "customers" rfl⟩

/-- C5, counterexample: when the resolver hits the cycle in `[A, B]`,
`analyze` (non-llmtxt path) propagates the error — the result delivers
*no* tables, so the already-constructed entities are not reported to the
caller through `analyze`. -/
theorem analyze_cycle_delivers_nothing :
    analyze [tCycA, tCycB] false = .error (.cyclic "A") := rfl

/-- C5 (amended): when the resolver fails inside `analyze`, the error
propagates and the analysis returns no result at all — the constructed
`Table` entities are not delivered with it; the tables are deliverable
without an insertion order only through the `llmtxt` path, which skips
order computation entirely. -/
theorem analyze_error_propagates (tables : List Table) (e : VErr)
    (h : determineInsertionOrder tables = .error e) :
    analyze tables false = .error e ∧ analyze tables true = .ok (tables, none) := by
  constructor
  · show (match determineInsertionOrder tables with
      | .ok ord => Except.ok (tables, some ord)
      | .error e => Except.error e) = Except.error e
    rw [h]
  · rfl

/-- Witness for C5 (amended) at the cyclic input. -/
theorem analyze_error_propagates_witness :
    determineInsertionOrder [tCycA, tCycB] = .error (.cyclic "A") ∧
    (analyze [tCycA, tCycB] false = .error (.cyclic "A") ∧
      analyze [tCycA, tCycB] true = .ok ([tCycA, tCycB], none)) :=
  ⟨rfl, analyze_error_propagates [tCycA, tCycB] (.cyclic "A") rfl⟩

/-- C4, counterexample: neither digest implementation selects "tables with
at least one outgoing *or* incoming relationship".  In the example set,
`customers` (3 incoming references, 0 outgoing) is dropped by the
`OutputService` filter (outgoing only), and `orders` (1 outgoing, 0
incoming) is dropped by `identifyCoreTables` (incoming only) — so `orders`
is not ranked below `customers`; it is absent. -/
theorem core_tables_filter_divergence :
    tCustomers0 ∉ coreTablesOut exC4 ∧
    0 < referenceCount exC4 tCustomers0.name ∧
    tOrders0 ∉ identifyCoreTables exC4 ∧
    0 < tOrders0.foreign_keys.length ∧
    referenceCount exC4 "customers" = 3 ∧
    referenceCount exC4 "orders" = 0 := by
  refine ⟨by decide, by decide, ?_, by decide, by decide, by decide⟩
  intro hmem
  unfold identifyCoreTables at hmem
  rw [List.mem_mergeSort] at hmem
  exact absurd hmem (by decide)

/-- C4 (amended): `OutputService.generateLLMsTxt` takes as core exactly the
tables with at least one *outgoing* foreign key, kept in input order with no
ranking; `identifyCoreTables` takes exactly the tables with at least one
*incoming* reference, sorted by descending incoming-reference count —
`customers` (referenced by 3) appears there, while `orders` (referenced by
0) is excluded altogether. -/
theorem core_tables_characterization :
    (∀ (tables : List Table) (t : Table),
      t ∈ coreTablesOut tables ↔ t ∈ tables ∧ 0 < t.foreign_keys.length) ∧
    (∀ tables : List Table, (coreTablesOut tables).Sublist tables) ∧
    (∀ (tables : List Table) (t : Table),
      t ∈ identifyCoreTables tables ↔ t ∈ tables ∧ 0 < referenceCount tables t.name) ∧
    (∀ tables : List Table, (identifyCoreTables tables).Pairwise
      (fun a b => referenceCount tables b.name ≤ referenceCount tables a.name)) ∧
    tCustomers0 ∈ identifyCoreTables exC4 := by
  refine ⟨?_, ?_, ?_, ?_, ?_⟩
  · intro tables t
    simp [coreTablesOut, List.mem_filter]
  · intro tables
    exact List.filter_sublist _
  · intro tables t
    unfold identifyCoreTables
    rw [List.mem_mergeSort]
    simp [List.mem_filter]
  · intro tables
    unfold identifyCoreTables
    refine List.Pairwise.imp (fun h => of_decide_eq_true h)
      (List.sorted_mergeSort ?_ ?_ _)
    · intro a b c hab hbc
      simp only [decide_eq_true_eq] at hab hbc ⊢
      omega
    · intro a b
      simp only [Bool.or_eq_true, decide_eq_true_eq]
      exact Nat.le_total _ _
  · unfold identifyCoreTables
    rw [List.mem_mergeSort]
    decide

/-- C7, counterexample: a zero character length is *present* but JS-falsy:
the spec's presence rule would format `CHARACTER VARYING(0)`, while the code
falls through to the precision branch and formats
`CHARACTER VARYING(10,2)`. -/
theorem type_format_truthiness_divergence :
    getFullType rcZeroLen = "CHARACTER VARYING(10,2)" ∧
    getFullTypeSpec rcZeroLen = "CHARACTER VARYING(0)" ∧
    getFullType rcZeroLen ≠ getFullTypeSpec rcZeroLen :=
  ⟨rfl, rfl, by decide⟩

/-- C7 (amended): the two suffix conditions are JavaScript truthiness, not
mere presence: whenever neither field is a present-but-zero value — in
particular on every real catalog row, where lengths and precisions are
positive or absent — `getFullType` follows the claimed rule (uppercase base,
then `(length)`, else `(precision,scale)`, else nothing), and the claim's
three examples rate as stated. -/
theorem type_format_rule :
    (∀ c : RawColumn, c.character_maximum_length ≠ some 0 → c.numeric_precision ≠ some 0 →
      getFullType c = getFullTypeSpec c) ∧
    getFullType rcVarchar = "CHARACTER VARYING(255)" ∧
    getFullType rcNumeric = "NUMERIC(10,2)" ∧
    getFullType rcInteger = "INTEGER" := by
  refine ⟨?_, rfl, rfl, rfl⟩
  intro c h1 h2
  unfold getFullType getFullTypeSpec truthy numToString
  cases hc : c.character_maximum_length with
  | some n =>
    have hn : n ≠ 0 := fun h => h1 (by rw [hc, h])
    simp [hc, hn]
  | none =>
    cases hp : c.numeric_precision with
    | some p =>
      have hp0 : p ≠ 0 := fun h => h2 (by rw [hp, h])
      simp [hc, hp, hp0]
    | none => simp [hc, hp]

/-- Witness for C7 (amended) at the varchar example. -/
theorem type_format_rule_witness :
    rcVarchar.character_maximum_length ≠ some 0 ∧ rcVarchar.numeric_precision ≠ some 0 ∧
    getFullType rcVarchar = getFullTypeSpec rcVarchar :=
  ⟨by decide, by decide, type_format_rule.1 rcVarchar (by decide) (by decide)⟩

/-- C8, counterexample: for the one-element value list whose label is
`a,b`, the native array renders `a,b` but the delimited string form renders
`a, b` (the stripped string is split at *every* comma), so the two forms do
not normalize to the same output. -/
theorem enum_render_divergence :
    renderEnumValues (.arr [evCommaVal]) = ['a', ',', 'b'] ∧
    renderEnumValues (.str (delimitedForm [evCommaVal])) = ['a', ',', ' ', 'b'] ∧
    renderEnumValues (.arr [evCommaVal]) ≠
      renderEnumValues (.str (delimitedForm [evCommaVal])) :=
  ⟨rfl, rfl, by decide⟩

/-- C8 (amended): the native array form and the delimited string form render
the same "Allowed values" text for every enum value list in which no value
contains a comma, brace, or double quote — the characters the string parser
destroys. -/
theorem enum_render_agree (values : List (List Char)) (h : ∀ s ∈ values, CleanVal s) :
    renderEnumValues (.str (delimitedForm values)) = renderEnumValues (.arr values) := by
  cases values with
  | nil => rfl
  | cons v rest =>
    show joinSep [',', ' '] (splitComma (stripBracesQuotes (delimitedForm (v :: rest)))) = _
    rw [strip_delimitedForm h, splitComma_joinSep (by simp)
      (fun s hs hmem => (h s hs ',' hmem) (Or.inl rfl))]
    rfl

/-- Witness for C8 (amended) at the clean list `["a", "bc"]`. -/
theorem enum_render_agree_witness :
    (∀ s ∈ [['a'], ['b', 'c']], CleanVal s) ∧
    renderEnumValues (.str (delimitedForm [['a'], ['b', 'c']])) =
      renderEnumValues (.arr [['a'], ['b', 'c']]) :=
  ⟨by decide, enum_render_agree [['a'], ['b', 'c']] (by decide)⟩

/-- C9: the insertion guide's "required columns" are exactly the columns of
the table that are non-nullable and carry a null default; in particular the
`nullable=false, default=null` column is listed and the
`nullable=false, default="0"` column is not. -/
theorem required_columns_exact :
    (∀ (t : Table) (c : Column), c ∈ requiredColumns t ↔
      c ∈ t.columns ∧ c.nullable = false ∧ c.default_value = none) ∧
    colRequired ∈ requiredColumns tOrdersCols ∧
    colDefaulted ∉ requiredColumns tOrdersCols := by
  refine ⟨?_, by decide, by decide⟩
  intro t c
  simp [requiredColumns, List.mem_filter, Option.isNone_iff_eq_none, Bool.not_eq_true',
    and_assoc]

end SchemaAnalyzer
